import Mathlib

/-!
Verification of the randomized minimum-cut program (`min_cut.py`).

The program is embedded shallowly:
* an edge is the Python tuple `(v1, v2, unique_id)`, modelled as `ℤ × ℤ × ℤ`;
* `random.choice` is factored out as an explicit `choose` function handed to the
  trial runner (per-trial randomness becomes `choose : ℕ → List Edge → Edge`);
* the in-place rewriting loop of `merge_random_edge` updates each list cell
  independently, so it is a `List.map`, and the final comprehension is `List.filter`;
* Python's `math.log(n, 2)` is modelled as the exact real `Real.logb 2 n`; it
  raises a domain error for `n = 0`, so the run-count computation returns an
  `Option`; Python's `int` truncation is `Int.floor` (the value is nonnegative).
-/

namespace MinCut

/-- An edge `(v1, v2, unique_id)` as produced by `create_edges_list`. -/
abbrev Edge : Type := ℤ × ℤ × ℤ

/-- First component of the normalized pair `(v1, v2) if v1 < v2 else (v2, v1)`. -/
def pairFst (a b : ℤ) : ℤ := if a < b then a else b

/-- Second component of the normalized pair `(v1, v2) if v1 < v2 else (v2, v1)`. -/
def pairSnd (a b : ℤ) : ℤ := if a < b then b else a

/-- The loader's running state: the `edges` list, the `edges_added` set of
normalized pairs, and the `unique_id` counter. -/
structure LoadState where
  edges : List Edge
  edges_added : Finset (ℤ × ℤ)
  unique_id : ℤ

/-- Body of the inner loop of `create_edges_list`: normalize the pair, skip it
when already present, otherwise append it with the next sequential identifier. -/
def addEdge (v1 v2 : ℤ) (st : LoadState) : LoadState :=
  let p : ℤ × ℤ := (pairFst v1 v2, pairSnd v1 v2)
  if p ∈ st.edges_added then st
  else ⟨st.edges ++ [(p.1, p.2, st.unique_id)], insert p st.edges_added, st.unique_id + 1⟩

/-- One row of the input: the first number is a vertex, the rest its neighbours.
An empty row is skipped (the blank-line check). -/
def loadRow (st : LoadState) (row : List ℤ) : LoadState :=
  match row with
  | [] => st
  | v1 :: rest => rest.foldl (fun s v2 => addEdge v1 v2 s) st

/-- `create_edges_list`, with the file contents abstracted as rows of integers. -/
def create_edges_list (rows : List (List ℤ)) : List Edge :=
  (rows.foldl loadRow ⟨[], ∅, 0⟩).edges

/-- `count_vertices`: insert both endpoints of every edge into a set and return
its size. -/
def count_vertices (edges_list : List Edge) : ℕ :=
  (edges_list.foldl (fun s e => insert e.2.1 (insert e.1 s)) (∅ : Finset ℤ)).card

/-- One step of the rewriting loop of `merge_random_edge` (lines 58-80): mark
edges equal to `(v1, v2)` with identifier `-1`, redirect edges touching `v2`
to `v1` keeping the smaller label first, leave the rest alone. -/
def mergeTransform (v1 v2 : ℤ) (e : Edge) : Edge :=
  if e.1 = v1 ∧ e.2.1 = v2 then (v1, v2, -1)
  else if e.1 = v2 then
    (if v1 < e.2.1 then (v1, e.2.1, e.2.2) else (e.2.1, v1, e.2.2))
  else if e.2.1 = v2 then
    (if v1 < e.1 then (v1, e.1, e.2.2) else (e.1, v1, e.2.2))
  else e

/-- `merge_random_edge`, with the randomly chosen edge passed explicitly:
normalize the chosen endpoints, rewrite every cell of the list, then drop the
cells marked with identifier `-1`. -/
def merge_random_edge (edges_list : List Edge) (chosen : Edge) : List Edge :=
  let v1 := pairFst chosen.1 chosen.2.1
  let v2 := pairSnd chosen.1 chosen.2.1
  (edges_list.map (mergeTransform v1 v2)).filter (fun e => e.2.2 ≠ -1)

/-- One iteration of the `while` body of `min_cut`: pick an edge from the
current list and contract it. -/
def trialStep (choose : List Edge → Edge) (edges_list : List Edge) : List Edge :=
  merge_random_edge edges_list (choose edges_list)

/-- The `while vertices_remaining > 2` loop of `min_cut`, recursing on the
counter exactly as the Python loop decrements it. -/
def min_cut_loop (choose : List Edge → Edge) : ℕ → List Edge → List Edge
  | 0, es => es
  | 1, es => es
  | 2, es => es
  | v + 3, es => min_cut_loop choose (v + 2) (trialStep choose es)

/-- `min_cut`: contract a copy of the original list down to two vertices, then
filter the original list by the surviving identifiers. -/
def min_cut (choose : List Edge → Edge) (original_edges_list : List Edge)
    (vertices_remaining : ℕ) : List Edge :=
  let edges_list := min_cut_loop choose vertices_remaining original_edges_list
  let ids := edges_list.map (fun e => e.2.2)
  original_edges_list.filter (fun e => e.2.2 ∈ ids)

/-- State-passing form of `min_cut`: the second component threads the caller's
`original_edges_list` object through the call.  The body deep-copies it
(line 97) and every contraction rewrites only that copy, so the function reads
`original_edges_list` (lines 97 and 104) and never writes it. -/
def min_cut_st (choose : List Edge → Edge) (original_edges_list : List Edge)
    (vertices_remaining : ℕ) : List Edge × List Edge :=
  let edges_list := original_edges_list
  let final := min_cut_loop choose vertices_remaining edges_list
  let ids := final.map (fun e => e.2.2)
  (original_edges_list.filter (fun e => e.2.2 ∈ ids), original_edges_list)

/-- `number_of_runs`: `int(n * (n-1) * math.log(n, 2))`.  `math.log(0, 2)`
raises a domain error, hence `none` at `0`; for `n ≥ 1` the value is
nonnegative, so Python's truncating `int` is the floor. -/
noncomputable def number_of_runs (n : ℕ) : Option ℤ :=
  if n = 0 then none
  else some ⌊(n : ℝ) * ((n : ℝ) - 1) * Real.logb 2 (n : ℝ)⌋

/-- Modelled from the spec: the Amplification Policy `trialCount(n)`, defined
as `ceil(n * (n-1) * log2(n))`. -/
noncomputable def trialCount_ceil (n : ℕ) : ℤ :=
  ⌈(n : ℝ) * ((n : ℝ) - 1) * Real.logb 2 (n : ℝ)⌉

/-- One iteration of the module-level trial loop (lines 125-130): reseed
(modelled by the per-trial index `k` of `choose`), run `min_cut`, replace the
best on strict improvement (`float('inf')` is `⊤`).  The second component
counts executed iterations. -/
def driver_body (choose : ℕ → List Edge → Edge) (original_edges_list : List Edge)
    (number_of_vertices : ℕ) (st : (WithTop ℕ × List Edge) × ℕ) (k : ℕ) :
    (WithTop ℕ × List Edge) × ℕ :=
  let edges_of_curr_min_cut := min_cut (choose k) original_edges_list number_of_vertices
  let num_edges : WithTop ℕ := (edges_of_curr_min_cut.length : ℕ)
  (if num_edges < st.1.1 then (num_edges, edges_of_curr_min_cut) else st.1, st.2 + 1)

/-- The module-level trial loop (lines 115-130): starting from
`smaller_num_edges_min_cut = inf` and `edges_of_min_cut = []`, iterate `k`
over `range(1, number_of_vertices + 1)` running `driver_body`. -/
def driver_loop (choose : ℕ → List Edge → Edge) (original_edges_list : List Edge) :
    (WithTop ℕ × List Edge) × ℕ :=
  let number_of_vertices := count_vertices original_edges_list
  (List.range' 1 number_of_vertices).foldl
    (driver_body choose original_edges_list number_of_vertices)
    ((⊤, ([] : List Edge)), 0)

/-- Modelled from the spec (steps 3 and 4 of `contractOnce`), per edge: an
endpoint equal to `b` is relabelled to `a` and the pair re-normalized so the
smaller label is first, the identity untouched; an edge whose endpoints became
equal is removed; any other edge is retained unchanged. -/
def contractF (a b : ℤ) (e : Edge) : Option Edge :=
  let e' : Edge :=
    if e.1 = b then (if a < e.2.1 then (a, e.2.1, e.2.2) else (e.2.1, a, e.2.2))
    else if e.2.1 = b then (if a < e.1 then (a, e.1, e.2.2) else (e.1, a, e.2.2))
    else e
  if e'.1 = e'.2.1 then none else some e'

/-- Modelled from the spec (steps 3 and 4 of `contractOnce`): apply `contractF`
to every edge of the store. -/
def contractOnce_relabel (a b : ℤ) (edges_list : List Edge) : List Edge :=
  edges_list.filterMap (contractF a b)

/-- The effect of `merge_random_edge` on a single list cell, as an option:
rewrite the cell and drop it when its identifier is `-1`. -/
def mergeF (v1 v2 : ℤ) (e : Edge) : Option Edge :=
  if (mergeTransform v1 v2 e).2.2 = -1 then none else some (mergeTransform v1 v2 e)

/-- The set of endpoint labels appearing in a list of edges. -/
def vertexFinset (edges_list : List Edge) : Finset ℤ :=
  (edges_list.map Prod.fst ++ edges_list.map (fun e => e.2.1)).toFinset

/-- The identifier of an edge. -/
def edgeId (e : Edge) : ℤ := e.2.2

lemma pairFst_of_lt {a b : ℤ} (h : a < b) : pairFst a b = a := if_pos h

lemma pairSnd_of_lt {a b : ℤ} (h : a < b) : pairSnd a b = b := if_pos h

lemma mergeTransform_marked {v1 v2 : ℤ} {e : Edge} (h : e.1 = v1 ∧ e.2.1 = v2) :
    mergeTransform v1 v2 e = (v1, v2, -1) := by
  rw [mergeTransform, if_pos h]

lemma mergeTransform_id {v1 v2 : ℤ} {e : Edge} (h : ¬(e.1 = v1 ∧ e.2.1 = v2)) :
    (mergeTransform v1 v2 e).2.2 = e.2.2 := by
  rw [mergeTransform, if_neg h]
  split
  · split <;> rfl
  · split
    · split <;> rfl
    · rfl

/-- `merge_random_edge` is the elementwise `mergeF` applied along the list. -/
lemma merge_random_edge_eq_filterMap (c : Edge) :
    ∀ l : List Edge, merge_random_edge l c =
      l.filterMap (mergeF (pairFst c.1 c.2.1) (pairSnd c.1 c.2.1))
  | [] => rfl
  | e :: es => by
      have ih := merge_random_edge_eq_filterMap c es
      by_cases h : (mergeTransform (pairFst c.1 c.2.1) (pairSnd c.1 c.2.1) e).2.2 = -1
      · have hL : merge_random_edge (e :: es) c = merge_random_edge es c := by
          simp [merge_random_edge, List.filter_cons, h]
        have hR : (e :: es).filterMap (mergeF (pairFst c.1 c.2.1) (pairSnd c.1 c.2.1)) =
            es.filterMap (mergeF (pairFst c.1 c.2.1) (pairSnd c.1 c.2.1)) := by
          simp [List.filterMap_cons, mergeF, h]
        rw [hL, hR, ih]
      · have hL : merge_random_edge (e :: es) c =
            mergeTransform (pairFst c.1 c.2.1) (pairSnd c.1 c.2.1) e :: merge_random_edge es c := by
          simp [merge_random_edge, List.filter_cons, h]
        have hR : (e :: es).filterMap (mergeF (pairFst c.1 c.2.1) (pairSnd c.1 c.2.1)) =
            mergeTransform (pairFst c.1 c.2.1) (pairSnd c.1 c.2.1) e ::
              es.filterMap (mergeF (pairFst c.1 c.2.1) (pairSnd c.1 c.2.1)) := by
          simp [List.filterMap_cons, mergeF, h]
        rw [hL, hR, ih]

/-- On a store whose identifiers are not the sentinel `-1`, one merge step acts
exactly as the spec's `contractOnce` relabel-and-drop-self-loops description:
elementwise, `mergeF` and `contractF` agree. -/
lemma mergeF_eq_contractF {a b : ℤ} (hab : a < b) {e : Edge}
    (hnorm : e.1 < e.2.1) (hid : e.2.2 ≠ -1) :
    mergeF a b e = contractF a b e := by
  obtain ⟨x, y, j⟩ := e
  simp only at hnorm hid
  by_cases h1 : x = b
  · subst h1
    have hba : ¬(x = a) := by omega
    have hay : a < y := by omega
    have hay' : ¬(a = y) := by omega
    simp [mergeF, contractF, mergeTransform, hba, hay, hay', hid]
  · by_cases h4 : y = b
    · subst h4
      by_cases hxa : x = a
      · subst hxa
        have hne : ¬(x = y) := by omega
        have haa : ¬(x < x) := by omega
        simp [mergeF, contractF, mergeTransform, h1, hne, haa]
      · have hxa' : ¬(x = a) := hxa
        have hax : ¬(a = x) := fun h => hxa h.symm
        simp only [mergeF, contractF, mergeTransform, h1, hxa', hax, and_false,
          false_and, if_false, if_true, ite_true, ite_false]
        by_cases h6 : a < x
        · simp [h6, hax, hid]
        · simp [h6, hxa', hid]
    · have hm : ¬(x = a ∧ y = b) := fun h => h4 h.2
      have hne : ¬(x = y) := by omega
      simp [mergeF, contractF, mergeTransform, hm, h1, h4, hne, hid]

/-- On a normalized store with genuine identifiers, `merge_random_edge` with a
normalized chosen edge coincides with the spec's contraction. -/
lemma merge_eq_contractOnce_relabel {a b i : ℤ} (hab : a < b) {l : List Edge}
    (hnorm : ∀ e ∈ l, e.1 < e.2.1) (hid : ∀ e ∈ l, e.2.2 ≠ -1) :
    merge_random_edge l (a, b, i) = contractOnce_relabel a b l := by
  rw [merge_random_edge_eq_filterMap, contractOnce_relabel]
  have h1 : pairFst (a, b, i).1 (a, b, i).2.1 = a := pairFst_of_lt hab
  have h2 : pairSnd (a, b, i).1 (a, b, i).2.1 = b := pairSnd_of_lt hab
  rw [h1, h2]
  induction l with
  | nil => rfl
  | cons e es ih =>
      rw [List.filterMap_cons, List.filterMap_cons,
        mergeF_eq_contractF hab (hnorm e (by simp)) (hid e (by simp)),
        ih (fun x hx => hnorm x (by simp [hx])) (fun x hx => hid x (by simp [hx]))]

lemma mem_vertexFinset {x : ℤ} {l : List Edge} :
    x ∈ vertexFinset l ↔ ∃ e ∈ l, x = e.1 ∨ x = e.2.1 := by
  simp only [vertexFinset, List.mem_toFinset, List.mem_append, List.mem_map]
  constructor
  · rintro (⟨e, he, rfl⟩ | ⟨e, he, rfl⟩)
    · exact ⟨e, he, Or.inl rfl⟩
    · exact ⟨e, he, Or.inr rfl⟩
  · rintro ⟨e, he, rfl | rfl⟩
    · exact Or.inl ⟨e, he, rfl⟩
    · exact Or.inr ⟨e, he, rfl⟩

lemma count_foldl_mem {x : ℤ} :
    ∀ (l : List Edge) (s : Finset ℤ),
      x ∈ l.foldl (fun s e => insert e.2.1 (insert e.1 s)) s ↔
        x ∈ s ∨ ∃ e ∈ l, x = e.1 ∨ x = e.2.1
  | [], s => by simp
  | e :: es, s => by
      rw [List.foldl_cons, count_foldl_mem es]
      simp only [Finset.mem_insert, List.mem_cons]
      constructor
      · rintro (h | h)
        · rcases h with h | h | h
          · exact Or.inr ⟨e, Or.inl rfl, Or.inr h⟩
          · exact Or.inr ⟨e, Or.inl rfl, Or.inl h⟩
          · exact Or.inl h
        · rcases h with ⟨e', he', hx⟩
          exact Or.inr ⟨e', Or.inr he', hx⟩
      · rintro (h | ⟨e', he' | he', hx⟩)
        · exact Or.inl (Or.inr (Or.inr h))
        · subst he'
          rcases hx with hx | hx
          · exact Or.inl (Or.inr (Or.inl hx))
          · exact Or.inl (Or.inl hx)
        · exact Or.inr ⟨e', he', hx⟩

/-- `count_vertices` computes the size of the set of endpoint labels. -/
lemma count_vertices_eq_card (l : List Edge) :
    count_vertices l = (vertexFinset l).card := by
  rw [count_vertices]
  congr 1
  ext x
  rw [count_foldl_mem, mem_vertexFinset]
  simp

lemma contractF_left_b {a b y j : ℤ} (hab : a < b) (hby : b < y) :
    contractF a b (b, y, j) = some (a, y, j) := by
  have h1 : a < y := lt_trans hab hby
  have h2 : ¬(a = y) := by omega
  simp [contractF, h1, h2]

lemma contractF_pair {a b j : ℤ} (hab : a < b) :
    contractF a b (a, b, j) = none := by
  have h1 : ¬(a = b) := by omega
  have h2 : ¬(a < a) := by omega
  simp [contractF, h1, h2]

lemma contractF_right_b {a b x j : ℤ} (hxa : x ≠ a) (hxb : x ≠ b) :
    contractF a b (x, b, j) = some (if a < x then (a, x, j) else (x, a, j)) := by
  by_cases h : a < x
  · have h2 : ¬(a = x) := by omega
    simp [contractF, hxb, h, h2]
  · have h2 : ¬(x = a) := hxa
    simp [contractF, hxb, h, h2]

lemma contractF_other {a b x y j : ℤ} (hxb : x ≠ b) (hyb : y ≠ b) (hxy : x < y) :
    contractF a b (x, y, j) = some (x, y, j) := by
  have h : ¬(x = y) := by omega
  simp [contractF, hxb, hyb, h]

/-- Contracting the normalized pair `(a, b)` of a normalized store removes the
label `b` from the endpoint set and keeps every other label, provided some edge
other than the contracted parallel class is incident to `a` or `b`. -/
lemma vertexFinset_contract {a b : ℤ} (hab : a < b) {l : List Edge}
    (hnorm : ∀ e ∈ l, e.1 < e.2.1)
    (hmem : ∃ j, (a, b, j) ∈ l)
    (hcond : ∃ e ∈ l, ¬(e.1 = a ∧ e.2.1 = b) ∧
      (e.1 = a ∨ e.1 = b ∨ e.2.1 = a ∨ e.2.1 = b)) :
    vertexFinset (contractOnce_relabel a b l) = (vertexFinset l).erase b := by
  obtain ⟨j0, hj0⟩ := hmem
  have hne : a ≠ b := by omega
  ext x
  rw [Finset.mem_erase, mem_vertexFinset, mem_vertexFinset]
  constructor
  · rintro ⟨e', he', hx⟩
    rw [contractOnce_relabel, List.mem_filterMap] at he'
    obtain ⟨e, he, hfe⟩ := he'
    obtain ⟨u, v, i⟩ := e
    have huv : u < v := hnorm (u, v, i) he
    by_cases hub : u = b
    · have hbv : b < v := hub ▸ huv
      rw [hub, contractF_left_b hab hbv] at hfe
      have he2 : e' = (a, v, i) := (Option.some_injective _ hfe).symm
      rw [he2] at hx
      dsimp only at hx
      rcases hx with h | h
      · exact ⟨by omega, (a, b, j0), hj0, Or.inl h⟩
      · exact ⟨by omega, (u, v, i), he, Or.inr h⟩
    · by_cases hvb : v = b
      · by_cases hua : u = a
        · rw [hua, hvb, contractF_pair hab] at hfe
          exact absurd hfe (by simp)
        · rw [hvb, contractF_right_b hua hub] at hfe
          have he2 : e' = if a < u then (a, u, i) else (u, a, i) :=
            (Option.some_injective _ hfe).symm
          rw [he2] at hx
          have hub2 : u < b := hvb ▸ huv
          by_cases h : a < u
          · rw [if_pos h] at hx
            dsimp only at hx
            rcases hx with h1 | h1
            · exact ⟨by omega, (a, b, j0), hj0, Or.inl h1⟩
            · exact ⟨by omega, (u, v, i), he, Or.inl h1⟩
          · rw [if_neg h] at hx
            dsimp only at hx
            rcases hx with h1 | h1
            · exact ⟨by omega, (u, v, i), he, Or.inl h1⟩
            · exact ⟨by omega, (a, b, j0), hj0, Or.inl h1⟩
      · rw [contractF_other hub hvb huv] at hfe
        have he2 : e' = (u, v, i) := (Option.some_injective _ hfe).symm
        rw [he2] at hx
        dsimp only at hx
        rcases hx with h | h
        · exact ⟨by omega, (u, v, i), he, Or.inl h⟩
        · exact ⟨by omega, (u, v, i), he, Or.inr h⟩
  · rintro ⟨hxb, e, he, hx⟩
    by_cases hxa : x = a
    · obtain ⟨e0, he0, hnp, hinc⟩ := hcond
      obtain ⟨u, v, i⟩ := e0
      have huv : u < v := hnorm (u, v, i) he0
      simp only at hnp hinc
      by_cases hub : u = b
      · refine ⟨(a, v, i), ?_, Or.inl hxa⟩
        rw [contractOnce_relabel, List.mem_filterMap]
        refine ⟨(u, v, i), he0, ?_⟩
        rw [hub]
        exact contractF_left_b hab (hub ▸ huv)
      · by_cases hvb : v = b
        · have hua : u ≠ a := fun h => hnp ⟨h, hvb⟩
          refine ⟨if a < u then (a, u, i) else (u, a, i), ?_, ?_⟩
          · rw [contractOnce_relabel, List.mem_filterMap]
            refine ⟨(u, v, i), he0, ?_⟩
            rw [hvb]
            exact contractF_right_b hua hub
          · by_cases h : a < u <;> simp [h, hxa]
        · have hsome : contractF a b (u, v, i) = some (u, v, i) :=
            contractF_other hub hvb huv
          have hx0 : x = u ∨ x = v := by
            rcases hinc with h | h | h | h
            · omega
            · exact absurd h hub
            · omega
            · exact absurd h hvb
          refine ⟨(u, v, i), ?_, by tauto⟩
          rw [contractOnce_relabel, List.mem_filterMap]
          exact ⟨(u, v, i), he0, hsome⟩
    · obtain ⟨u, v, i⟩ := e
      have huv : u < v := hnorm (u, v, i) he
      simp only at hx
      by_cases hub : u = b
      · have hxv : x = v := by
          rcases hx with rfl | rfl
          · exact absurd hub hxb
          · rfl
        refine ⟨(a, v, i), ?_, Or.inr hxv⟩
        rw [contractOnce_relabel, List.mem_filterMap]
        refine ⟨(u, v, i), he, ?_⟩
        rw [hub]
        exact contractF_left_b hab (hub ▸ huv)
      · by_cases hvb : v = b
        · have hxu : x = u := by
            rcases hx with rfl | rfl
            · rfl
            · exact absurd hvb hxb
          have hua : u ≠ a := fun h => hxa (hxu.trans h)
          refine ⟨if a < u then (a, u, i) else (u, a, i), ?_, ?_⟩
          · rw [contractOnce_relabel, List.mem_filterMap]
            refine ⟨(u, v, i), he, ?_⟩
            rw [hvb]
            exact contractF_right_b hua hub
          · by_cases h : a < u <;> simp [h, hxu]
        · refine ⟨(u, v, i), ?_, hx⟩
          rw [contractOnce_relabel, List.mem_filterMap]
          exact ⟨(u, v, i), he, contractF_other hub hvb huv⟩

lemma filterMap_length_lt {α β : Type} {f : α → Option β} :
    ∀ {l : List α} {e : α}, e ∈ l → f e = none → (l.filterMap f).length < l.length
  | a :: l, e, he, hfe => by
      rcases List.mem_cons.mp he with rfl | hemem
      · rw [List.filterMap_cons, hfe]
        exact lt_of_le_of_lt (List.length_filterMap_le f l) (by simp)
      · cases h : f a with
        | none =>
            rw [List.filterMap_cons, h]
            exact lt_trans (filterMap_length_lt hemem hfe) (by simp)
        | some b =>
            rw [List.filterMap_cons, h]
            simpa using Nat.succ_lt_succ (filterMap_length_lt hemem hfe)

/-- Identifiers surviving one merge step form a sublist of the identifiers of
the input store: no identifier is ever duplicated or invented by a merge. -/
lemma merge_ids_sublist (c : Edge) :
    ∀ l : List Edge,
      ((merge_random_edge l c).map (fun e => e.2.2)).Sublist (l.map (fun e => e.2.2))
  | [] => by simp [merge_random_edge]
  | e :: es => by
      have ih := merge_ids_sublist c es
      rw [merge_random_edge_eq_filterMap] at ih ⊢
      by_cases h : (mergeTransform (pairFst c.1 c.2.1) (pairSnd c.1 c.2.1) e).2.2 = -1
      · have hf : mergeF (pairFst c.1 c.2.1) (pairSnd c.1 c.2.1) e = none := by
          rw [mergeF, if_pos h]
        rw [List.filterMap_cons_none hf, List.map_cons]
        exact ih.trans (List.sublist_cons_self _ _)
      · have hf : mergeF (pairFst c.1 c.2.1) (pairSnd c.1 c.2.1) e =
            some (mergeTransform (pairFst c.1 c.2.1) (pairSnd c.1 c.2.1) e) := by
          rw [mergeF, if_neg h]
        rw [List.filterMap_cons_some hf, List.map_cons, List.map_cons]
        have hid : (mergeTransform (pairFst c.1 c.2.1) (pairSnd c.1 c.2.1) e).2.2 = e.2.2 := by
          by_cases hm : e.1 = pairFst c.1 c.2.1 ∧ e.2.1 = pairSnd c.1 c.2.1
          · rw [mergeTransform_marked hm] at h
            exact absurd rfl h
          · exact mergeTransform_id hm
        rw [hid]
        exact ih.cons₂ _

/-- Identifiers surviving any number of trial steps form a sublist of the
original identifiers. -/
lemma min_cut_loop_ids_sublist (choose : List Edge → Edge) :
    ∀ (vr : ℕ) (l : List Edge),
      ((min_cut_loop choose vr l).map (fun e => e.2.2)).Sublist (l.map (fun e => e.2.2))
  | 0, _ => List.Sublist.refl _
  | 1, _ => List.Sublist.refl _
  | 2, _ => List.Sublist.refl _
  | v + 3, l =>
      (min_cut_loop_ids_sublist choose (v + 2) (trialStep choose l)).trans
        (merge_ids_sublist (choose l) l)

/-- The `while` loop of `min_cut` performs exactly `vertices_remaining - 2`
contraction steps. -/
lemma min_cut_loop_eq_iterate (choose : List Edge → Edge) :
    ∀ (vr : ℕ) (l : List Edge),
      min_cut_loop choose vr l = (trialStep choose)^[vr - 2] l
  | 0, _ => rfl
  | 1, _ => rfl
  | 2, _ => rfl
  | v + 3, l => by
      show min_cut_loop choose (v + 2) (trialStep choose l) = _
      rw [min_cut_loop_eq_iterate choose (v + 2) (trialStep choose l)]
      have h1 : v + 3 - 2 = (v + 2 - 2) + 1 := by omega
      rw [h1, Function.iterate_succ_apply]

/-- Loader invariant: the identifier counter is nonnegative and bounds every
identifier already assigned. -/
def goodState (st : LoadState) : Prop :=
  0 ≤ st.unique_id ∧ ∀ e ∈ st.edges, 0 ≤ e.2.2 ∧ e.2.2 < st.unique_id

lemma addEdge_good {v1 v2 : ℤ} {st : LoadState} (h : goodState st) :
    goodState (addEdge v1 v2 st) := by
  obtain ⟨h0, h1⟩ := h
  rw [addEdge]
  split
  · exact ⟨h0, h1⟩
  · refine ⟨?_, ?_⟩
    · show (0:ℤ) ≤ st.unique_id + 1
      omega
    · intro e he
      have he2 : e ∈ st.edges ++ [(pairFst v1 v2, pairSnd v1 v2, st.unique_id)] := he
      show 0 ≤ e.2.2 ∧ e.2.2 < st.unique_id + 1
      rcases List.mem_append.mp he2 with he3 | he3
      · have h2 := h1 e he3
        omega
      · rw [List.mem_singleton.mp he3]
        show 0 ≤ st.unique_id ∧ st.unique_id < st.unique_id + 1
        omega

lemma foldl_addEdge_good {v1 : ℤ} :
    ∀ (rest : List ℤ) {st : LoadState}, goodState st →
      goodState (rest.foldl (fun s v2 => addEdge v1 v2 s) st)
  | [], _, h => h
  | v2 :: rest, st, h => by
      rw [List.foldl_cons]
      exact foldl_addEdge_good rest (addEdge_good h)

lemma loadRow_good {st : LoadState} {row : List ℤ} (h : goodState st) :
    goodState (loadRow st row) := by
  cases row with
  | nil => exact h
  | cons v1 rest => exact foldl_addEdge_good rest h

lemma foldl_loadRow_good :
    ∀ (rows : List (List ℤ)) {st : LoadState}, goodState st →
      goodState (rows.foldl loadRow st)
  | [], _, h => h
  | row :: rows, st, h => by
      rw [List.foldl_cons]
      exact foldl_loadRow_good rows (loadRow_good h)

/-- Every identifier assigned by the loader is nonnegative. -/
lemma create_edges_list_ids_nonneg (rows : List (List ℤ)) :
    ∀ e ∈ create_edges_list rows, 0 ≤ e.2.2 := by
  intro e he
  have h : goodState (rows.foldl loadRow ⟨[], ∅, 0⟩) :=
    foldl_loadRow_good rows ⟨le_refl 0, by intro e he; simp at he⟩
  exact (h.2 e he).1

/-- The trial loop executes one iteration per element of its range. -/
lemma foldl_driver_body_counter (choose : ℕ → List Edge → Edge) (orig : List Edge) (n : ℕ) :
    ∀ (l : List ℕ) (st : (WithTop ℕ × List Edge) × ℕ),
      (l.foldl (driver_body choose orig n) st).2 = st.2 + l.length
  | [], _ => by simp
  | k :: ks, st => by
      rw [List.foldl_cons, foldl_driver_body_counter choose orig n ks]
      show st.2 + 1 + ks.length = st.2 + (ks.length + 1)
      omega

/-- The module-level loop runs `number_of_vertices` iterations. -/
lemma driver_loop_iterations (choose : ℕ → List Edge → Edge) (orig : List Edge) :
    (driver_loop choose orig).2 = count_vertices orig := by
  show ((List.range' 1 (count_vertices orig)).foldl
      (driver_body choose orig (count_vertices orig)) ((⊤, ([] : List Edge)), 0)).2 =
    count_vertices orig
  rw [foldl_driver_body_counter]
  simp [List.length_range']

/-- Bounds pinning `6 * log2 3` between 9 and 10 (since `2^9 < 3^6 < 2^10`). -/
lemma six_logb_two_three_bounds :
    (9 : ℝ) < 6 * Real.logb 2 3 ∧ 6 * Real.logb 2 3 < 10 := by
  have hb : (1 : ℝ) < 2 := by norm_num
  have h729 : (0 : ℝ) < 729 := by norm_num
  have hpow : Real.logb 2 ((3 : ℝ) ^ (6 : ℕ)) = ((6 : ℕ) : ℝ) * Real.logb 2 3 :=
    Real.logb_pow 2 3 6
  have key : Real.logb 2 729 = 6 * Real.logb 2 3 := by
    have h36 : ((3 : ℝ) ^ (6 : ℕ)) = 729 := by norm_num
    have hc : ((6 : ℕ) : ℝ) = 6 := by norm_num
    rw [← h36, hpow, hc]
  constructor
  · have h1 : (9 : ℝ) < Real.logb 2 729 := by
      rw [Real.lt_logb_iff_rpow_lt hb h729]
      have h512 : (2 : ℝ) ^ (9 : ℝ) = 512 := by
        rw [show (9 : ℝ) = ((9 : ℕ) : ℝ) by norm_num, Real.rpow_natCast]
        norm_num
      rw [h512]
      norm_num
    rw [key] at h1
    exact h1
  · have h2 : Real.logb 2 729 < 10 := by
      rw [Real.logb_lt_iff_lt_rpow hb h729]
      have h1024 : (2 : ℝ) ^ (10 : ℝ) = 1024 := by
        rw [show (10 : ℝ) = ((10 : ℕ) : ℝ) by norm_num, Real.rpow_natCast]
        norm_num
      rw [h1024]
      norm_num
    rw [key] at h2
    exact h2

/-- The computed run count at `n = 3` is `int(6 * log2 3) = int(9.50977...) = 9`. -/
lemma number_of_runs_three : number_of_runs 3 = some 9 := by
  rw [number_of_runs, if_neg (by norm_num : ¬(3 = 0))]
  have h : ((3 : ℕ) : ℝ) * (((3 : ℕ) : ℝ) - 1) * Real.logb 2 ((3 : ℕ) : ℝ) =
      6 * Real.logb 2 3 := by
    norm_num
  rw [h]
  have hb := six_logb_two_three_bounds
  congr 1
  rw [Int.floor_eq_iff]
  constructor
  · push_cast
    linarith [hb.1]
  · push_cast
    linarith [hb.2]

/-- The amplification policy's value at `n = 3` is `ceil(6 * log2 3) = 10`. -/
lemma trialCount_ceil_three : trialCount_ceil 3 = 10 := by
  rw [trialCount_ceil]
  have h : ((3 : ℕ) : ℝ) * (((3 : ℕ) : ℝ) - 1) * Real.logb 2 ((3 : ℕ) : ℝ) =
      6 * Real.logb 2 3 := by
    norm_num
  rw [h]
  have hb := six_logb_two_three_bounds
  rw [Int.ceil_eq_iff]
  constructor
  · push_cast
    linarith [hb.1]
  · push_cast
    linarith [hb.2]

/-- The computed run count at `n = 1` is `int(1 * 0 * log2 1) = 0`: no failure. -/
lemma number_of_runs_one : number_of_runs 1 = some 0 := by
  rw [number_of_runs, if_neg (by norm_num : ¬(1 = 0))]
  norm_num

/-- At `n = 0`, `math.log(0, 2)` raises a domain error. -/
lemma number_of_runs_zero : number_of_runs 0 = none := by
  rw [number_of_runs, if_pos rfl]

/-- With genuine identifiers, one merge drops exactly the cells equal to the
normalized contracted pair and keeps every other cell, rewritten in place. -/
lemma merge_eq_filter_then_map {c : Edge} :
    ∀ {l : List Edge}, (∀ e ∈ l, e.2.2 ≠ -1) →
      merge_random_edge l c =
        (l.filter (fun e => ¬(e.1 = pairFst c.1 c.2.1 ∧ e.2.1 = pairSnd c.1 c.2.1))).map
          (mergeTransform (pairFst c.1 c.2.1) (pairSnd c.1 c.2.1))
  | [], _ => rfl
  | e :: es, h => by
      have ih := merge_eq_filter_then_map (c := c) (l := es)
        (fun x hx => h x (List.mem_cons_of_mem e hx))
      by_cases hm : e.1 = pairFst c.1 c.2.1 ∧ e.2.1 = pairSnd c.1 c.2.1
      · have hf : mergeF (pairFst c.1 c.2.1) (pairSnd c.1 c.2.1) e = none := by
          rw [mergeF, if_pos (by rw [mergeTransform_marked hm])]
        have hL : merge_random_edge (e :: es) c = merge_random_edge es c := by
          rw [merge_random_edge_eq_filterMap, merge_random_edge_eq_filterMap,
            List.filterMap_cons_none hf]
        rw [hL, ih, List.filter_cons]
        simp [hm]
      · have hid : (mergeTransform (pairFst c.1 c.2.1) (pairSnd c.1 c.2.1) e).2.2 = e.2.2 :=
          mergeTransform_id hm
        have hf : mergeF (pairFst c.1 c.2.1) (pairSnd c.1 c.2.1) e =
            some (mergeTransform (pairFst c.1 c.2.1) (pairSnd c.1 c.2.1) e) := by
          rw [mergeF, if_neg]
          rw [hid]
          exact h e (List.mem_cons_self e es)
        have hL : merge_random_edge (e :: es) c =
            mergeTransform (pairFst c.1 c.2.1) (pairSnd c.1 c.2.1) e ::
              merge_random_edge es c := by
          rw [merge_random_edge_eq_filterMap, merge_random_edge_eq_filterMap,
            List.filterMap_cons_some hf]
        rw [hL, ih, List.filter_cons]
        simp [hm]

/-- C2: on any store satisfying the data-model invariants (endpoints normalized
`e.1 < e.2.1`, identifiers never the sentinel `-1`) and any sampled edge with
normalized endpoints `a < b`, `merge_random_edge` returns exactly the store in
which every edge incident to `b` is relabelled to `a` and re-normalized with
identity untouched, every edge whose endpoints become equal (the parallel
class of `(a, b)`, the sampled edge included) is removed as a self-loop, and
every other edge — parallel edges included — is retained unchanged. -/
theorem c2_contract_matches_relabel_drop (l : List Edge) (a b i : ℤ) (hab : a < b)
    (hnorm : ∀ e ∈ l, e.1 < e.2.1) (hid : ∀ e ∈ l, e.2.2 ≠ -1) :
    merge_random_edge l (a, b, i) = contractOnce_relabel a b l :=
  merge_eq_contractOnce_relabel hab hnorm hid

/-- Witness for C2 at a concrete store and sampled edge. -/
theorem c2_contract_matches_relabel_drop_witness :
    (1 : ℤ) < 2 ∧
    (∀ e ∈ ([(1, 2, 0), (2, 3, 1), (1, 3, 2)] : List Edge), e.1 < e.2.1) ∧
    (∀ e ∈ ([(1, 2, 0), (2, 3, 1), (1, 3, 2)] : List Edge), e.2.2 ≠ -1) ∧
    merge_random_edge [(1, 2, 0), (2, 3, 1), (1, 3, 2)] (1, 2, 0) =
      contractOnce_relabel 1 2 [(1, 2, 0), (2, 3, 1), (1, 3, 2)] :=
  ⟨by decide, by decide, by decide,
    c2_contract_matches_relabel_drop [(1, 2, 0), (2, 3, 1), (1, 3, 2)] 1 2 0
      (by decide) (by decide) (by decide)⟩

/-- C3 counterexample: the loadable store `{(1,2), (3,4)}` is a valid store
(non-empty, 4 live vertices), yet contracting the sampled edge `(1,2)` removes
both labels 1 and 2 — the distinct-label count drops from 4 to 2, not by 1. -/
theorem c3_vertex_drop_counterexample :
    create_edges_list [[1, 2], [3, 4]] = [(1, 2, 0), (3, 4, 1)] ∧
    count_vertices [(1, 2, 0), (3, 4, 1)] = 4 ∧
    merge_random_edge [(1, 2, 0), (3, 4, 1)] (1, 2, 0) = [(3, 4, 1)] ∧
    count_vertices [(3, 4, 1)] = 2 ∧
    count_vertices (merge_random_edge [(1, 2, 0), (3, 4, 1)] (1, 2, 0)) ≠
      count_vertices [(1, 2, 0), (3, 4, 1)] - 1 :=
  ⟨by decide, by decide, by decide, by decide, by decide⟩

/-- C3 amended: on a valid store, one contraction always removes at least one
edge (the sampled edge), and it reduces the number of distinct endpoint labels
by exactly 1 provided some edge outside the contracted parallel class is
incident to `a` or `b`; when the contracted pair is an isolated component the
drop is 2 instead. -/
theorem c3_contract_counts (l : List Edge) (a b i : ℤ) (hmem : (a, b, i) ∈ l)
    (hnorm : ∀ e ∈ l, e.1 < e.2.1) (hid : ∀ e ∈ l, e.2.2 ≠ -1)
    (hcond : ∃ e ∈ l, ¬(e.1 = a ∧ e.2.1 = b) ∧
      (e.1 = a ∨ e.1 = b ∨ e.2.1 = a ∨ e.2.1 = b)) :
    count_vertices (merge_random_edge l (a, b, i)) = count_vertices l - 1 ∧
    (merge_random_edge l (a, b, i)).length < l.length := by
  have hab : a < b := hnorm (a, b, i) hmem
  have heq := merge_eq_contractOnce_relabel (i := i) hab hnorm hid
  constructor
  · rw [heq, count_vertices_eq_card, count_vertices_eq_card,
      vertexFinset_contract hab hnorm ⟨i, hmem⟩ hcond,
      Finset.card_erase_of_mem (mem_vertexFinset.mpr ⟨(a, b, i), hmem, Or.inr rfl⟩)]
  · rw [heq, contractOnce_relabel]
    exact filterMap_length_lt hmem (contractF_pair hab)

/-- Witness for C3's amended statement on the triangle store. -/
theorem c3_contract_counts_witness :
    ((1, 2, 0) : Edge) ∈ ([(1, 2, 0), (1, 3, 1), (2, 3, 2)] : List Edge) ∧
    count_vertices (merge_random_edge [(1, 2, 0), (1, 3, 1), (2, 3, 2)] (1, 2, 0)) =
      count_vertices [(1, 2, 0), (1, 3, 1), (2, 3, 2)] - 1 ∧
    (merge_random_edge [(1, 2, 0), (1, 3, 1), (2, 3, 2)] (1, 2, 0)).length <
      ([(1, 2, 0), (1, 3, 1), (2, 3, 2)] : List Edge).length :=
  ⟨by decide,
    c3_contract_counts [(1, 2, 0), (1, 3, 1), (2, 3, 2)] 1 2 0
      (by decide) (by decide) (by decide) (by decide)⟩

/-- C4: the `while` loop of `min_cut` performs exactly
`vertices_remaining - 2` sequential contraction steps, and on a two-vertex
store holding a single edge, `min_cut` returns that edge (cut size 1) with the
loop performing zero contractions. -/
theorem c4_trial_contraction_count (choose : List Edge → Edge) (vr : ℕ)
    (l : List Edge) (a b i : ℤ) :
    min_cut_loop choose vr l = (trialStep choose)^[vr - 2] l ∧
    min_cut choose [(a, b, i)] 2 = [(a, b, i)] ∧
    (min_cut choose [(a, b, i)] 2).length = 1 := by
  have h2 : min_cut choose [(a, b, i)] 2 = [(a, b, i)] := by
    simp [min_cut, min_cut_loop]
  refine ⟨min_cut_loop_eq_iterate choose vr l, h2, ?_⟩
  rw [h2]
  rfl

/-- C7: from a store with pairwise-distinct identifiers, after any number of
contraction steps the identifiers are still pairwise distinct and form a
subset of the original identifiers, and every edge returned by `min_cut` is an
edge of the original store (so looking up a surviving identity in the original
store yields its original endpoint pair). -/
theorem c7_identity_provenance (choose : List Edge → Edge) (orig : List Edge)
    (vr k : ℕ) (h : (orig.map (fun e => e.2.2)).Nodup) :
    (((trialStep choose)^[k] orig).map (fun e => e.2.2)).Nodup ∧
    (∀ j ∈ ((trialStep choose)^[k] orig).map (fun e => e.2.2),
      j ∈ orig.map (fun e => e.2.2)) ∧
    (∀ e ∈ min_cut choose orig vr, e ∈ orig) := by
  have hsub : (((trialStep choose)^[k] orig).map (fun e => e.2.2)).Sublist
      (orig.map (fun e => e.2.2)) := by
    induction k with
    | zero => exact List.Sublist.refl _
    | succ n ih =>
        rw [Function.iterate_succ_apply']
        exact (merge_ids_sublist _ _).trans ih
  refine ⟨hsub.nodup h, fun j hj => hsub.subset hj, fun e he => ?_⟩
  have he2 : e ∈ orig.filter
      (fun e => e.2.2 ∈ (min_cut_loop choose vr orig).map (fun e => e.2.2)) := he
  exact List.mem_of_mem_filter he2

/-- Witness for C7 on the triangle store after one step. -/
theorem c7_identity_provenance_witness :
    (([(1, 2, 0), (1, 3, 1), (2, 3, 2)] : List Edge).map (fun e => e.2.2)).Nodup ∧
    ((((trialStep (fun l => l.headD (0, 0, 0)))^[1]
        [(1, 2, 0), (1, 3, 1), (2, 3, 2)]).map (fun e => e.2.2)).Nodup ∧
      (∀ j ∈ ((trialStep (fun l => l.headD (0, 0, 0)))^[1]
          [(1, 2, 0), (1, 3, 1), (2, 3, 2)]).map (fun e => e.2.2),
        j ∈ ([(1, 2, 0), (1, 3, 1), (2, 3, 2)] : List Edge).map (fun e => e.2.2)) ∧
      (∀ e ∈ min_cut (fun l => l.headD (0, 0, 0)) [(1, 2, 0), (1, 3, 1), (2, 3, 2)] 3,
        e ∈ ([(1, 2, 0), (1, 3, 1), (2, 3, 2)] : List Edge))) :=
  ⟨by decide,
    c7_identity_provenance (fun l => l.headD (0, 0, 0))
      [(1, 2, 0), (1, 3, 1), (2, 3, 2)] 3 1 (by decide)⟩

/-- C8: a trial never mutates the shared original store: the state-passing form
of `min_cut` returns the caller's `original_edges_list` unchanged, computes the
same result as the pure form, and its result is a sublist of the untouched
original store. -/
theorem c8_trial_preserves_original (choose : List Edge → Edge)
    (orig : List Edge) (vr : ℕ) :
    (min_cut_st choose orig vr).2 = orig ∧
    (min_cut_st choose orig vr).1 = min_cut choose orig vr ∧
    (min_cut_st choose orig vr).1.Sublist orig :=
  ⟨rfl, rfl, List.filter_sublist _⟩

/-- C9 counterexample: `count_vertices` of the empty store succeeds and returns
0 — it does not fail on an empty store, contradicting the claim that it fails
exactly there. -/
theorem c9_empty_store_counterexample : count_vertices ([] : List Edge) = 0 := by
  decide

/-- C9 amended: `count_vertices` returns the number of distinct endpoint
labels present in the store, and it never fails: on the empty store it
returns 0. -/
theorem c9_count_vertices_total :
    (∀ l : List Edge, count_vertices l =
      ((l.map Prod.fst ++ l.map (fun e => e.2.1)).dedup).length) ∧
    count_vertices ([] : List Edge) = 0 := by
  constructor
  · intro l
    rw [count_vertices_eq_card, vertexFinset, List.card_toFinset]
  · decide

/-- C10: the loader assigns only nonnegative identifiers (sequentially from 0),
merging preserves nonnegativity, and on a store with genuine (non-`-1`)
identifiers the final filter of `merge_random_edge` removes exactly the edges
marked as self-loops (the normalized chosen parallel class) and never drops a
surviving edge. -/
theorem c10_sentinel_no_collision (rows : List (List ℤ)) (l : List Edge)
    (c : Edge) (hid : ∀ e ∈ l, 0 ≤ e.2.2) :
    (∀ e ∈ create_edges_list rows, 0 ≤ e.2.2) ∧
    (∀ e ∈ merge_random_edge l c, 0 ≤ e.2.2) ∧
    merge_random_edge l c =
      (l.filter (fun e => ¬(e.1 = pairFst c.1 c.2.1 ∧ e.2.1 = pairSnd c.1 c.2.1))).map
        (mergeTransform (pairFst c.1 c.2.1) (pairSnd c.1 c.2.1)) := by
  have hid' : ∀ e ∈ l, e.2.2 ≠ -1 := fun e he => by
    have := hid e he
    omega
  have heq := merge_eq_filter_then_map (c := c) hid'
  refine ⟨create_edges_list_ids_nonneg rows, ?_, heq⟩
  intro e he
  rw [heq] at he
  rw [List.mem_map] at he
  obtain ⟨e0, he0, rfl⟩ := he
  have he0' := List.mem_of_mem_filter he0
  have hm : ¬(e0.1 = pairFst c.1 c.2.1 ∧ e0.2.1 = pairSnd c.1 c.2.1) := by
    intro hand
    have h3 := List.of_mem_filter he0
    simp [hand.1, hand.2] at h3
  rw [mergeTransform_id hm]
  exact hid e0 he0'

/-- Witness for C10 on the triangle store. -/
theorem c10_sentinel_no_collision_witness :
    (∀ e ∈ create_edges_list [[1, 2, 3], [2, 3]], 0 ≤ e.2.2) ∧
    (∀ e ∈ merge_random_edge [(1, 2, 0), (1, 3, 1), (2, 3, 2)] (1, 2, 0), 0 ≤ e.2.2) ∧
    merge_random_edge [(1, 2, 0), (1, 3, 1), (2, 3, 2)] (1, 2, 0) =
      (([(1, 2, 0), (1, 3, 1), (2, 3, 2)] : List Edge).filter
        (fun e => ¬(e.1 = pairFst (1, 2, 0).1 (1, 2, 0).2.1 ∧
          e.2.1 = pairSnd (1, 2, 0).1 (1, 2, 0).2.1))).map
        (mergeTransform (pairFst (1, 2, 0).1 (1, 2, 0).2.1)
          (pairSnd (1, 2, 0).1 (1, 2, 0).2.1)) :=
  c10_sentinel_no_collision [[1, 2, 3], [2, 3]] [(1, 2, 0), (1, 3, 1), (2, 3, 2)]
    (1, 2, 0) (by decide)

/-- C1 (bug evidence): on the triangle graph the module-level trial loop
executes `number_of_vertices = 3` iterations (`range(1, number_of_vertices+1)`),
while the computed budget is `number_of_runs = int(3*2*log2 3) = 9`; the loop
never consults the budget, contradicting the program's own progress messages
(`k` of `number_of_runs`) and final report. -/
theorem c1_trial_loop_runs_n_not_budget (choose : ℕ → List Edge → Edge) :
    (driver_loop choose [(1, 2, 0), (1, 3, 1), (2, 3, 2)]).2 = 3 ∧
    number_of_runs (count_vertices [(1, 2, 0), (1, 3, 1), (2, 3, 2)]) = some 9 ∧
    (3 : ℤ) ≠ 9 := by
  have hc : count_vertices ([(1, 2, 0), (1, 3, 1), (2, 3, 2)] : List Edge) = 3 := by
    decide
  refine ⟨?_, ?_, by decide⟩
  · rw [driver_loop_iterations, hc]
  · rw [hc, number_of_runs_three]

/-- C5 counterexample: at n = 3 the code computes `int(6*log2 3) = 9`, while
`ceil(6*log2 3) = 10`, so the computed count does not equal the ceiling. -/
theorem c5_trunc_vs_ceil_counterexample :
    number_of_runs 3 = some 9 ∧ trialCount_ceil 3 = 10 ∧
    number_of_runs 3 ≠ some (trialCount_ceil 3) := by
  refine ⟨number_of_runs_three, trialCount_ceil_three, ?_⟩
  rw [number_of_runs_three, trialCount_ceil_three]
  simp

/-- C5 amended: for every n ≥ 2 the computed trial count is the floor
(Python's truncating `int`) of `n*(n-1)*log2 n`, which lies within 1 below the
spec's ceiling: `ceil - 1 ≤ count ≤ ceil`. -/
theorem c5_trial_count_is_floor (n : ℕ) (h : 2 ≤ n) :
    number_of_runs n = some ⌊(n : ℝ) * ((n : ℝ) - 1) * Real.logb 2 (n : ℝ)⌋ ∧
    trialCount_ceil n - 1 ≤ ⌊(n : ℝ) * ((n : ℝ) - 1) * Real.logb 2 (n : ℝ)⌋ ∧
    ⌊(n : ℝ) * ((n : ℝ) - 1) * Real.logb 2 (n : ℝ)⌋ ≤ trialCount_ceil n := by
  refine ⟨?_, ?_, ?_⟩
  · rw [number_of_runs, if_neg (by omega)]
  · rw [trialCount_ceil]
    have h1 := Int.ceil_le_floor_add_one ((n : ℝ) * ((n : ℝ) - 1) * Real.logb 2 (n : ℝ))
    omega
  · rw [trialCount_ceil]
    exact Int.floor_le_ceil _

/-- Witness for C5's amended statement at n = 3. -/
theorem c5_trial_count_is_floor_witness :
    2 ≤ 3 ∧
    (number_of_runs 3 =
        some ⌊((3 : ℕ) : ℝ) * (((3 : ℕ) : ℝ) - 1) * Real.logb 2 ((3 : ℕ) : ℝ)⌋ ∧
      trialCount_ceil 3 - 1 ≤
        ⌊((3 : ℕ) : ℝ) * (((3 : ℕ) : ℝ) - 1) * Real.logb 2 ((3 : ℕ) : ℝ)⌋ ∧
      ⌊((3 : ℕ) : ℝ) * (((3 : ℕ) : ℝ) - 1) * Real.logb 2 ((3 : ℕ) : ℝ)⌋ ≤
        trialCount_ceil 3) :=
  ⟨by norm_num, c5_trial_count_is_floor 3 (by norm_num)⟩

/-- C6 counterexample: at n = 1 the run-count computation succeeds and
silently returns 0 instead of failing. -/
theorem c6_one_vertex_counterexample : number_of_runs 1 = some 0 ∧
    number_of_runs 1 ≠ none := by
  refine ⟨number_of_runs_one, ?_⟩
  rw [number_of_runs_one]
  simp

/-- C6 amended: only the empty store (n = 0) makes the program fail before
any trial: there `math.log(0, 2)` raises a domain error.  A one-vertex store is loadable
(a self-loop row), and for it the trial-count computation silently returns 0
without failing. -/
theorem c6_small_graph_behaviour :
    create_edges_list [[5, 5]] = [(5, 5, 0)] ∧
    count_vertices [(5, 5, 0)] = 1 ∧
    number_of_runs 1 = some 0 ∧
    number_of_runs 0 = none :=
  ⟨by decide, by decide, number_of_runs_one, number_of_runs_zero⟩

end MinCut
